import Mathlib

/-!
# Verification of `typesafe-csv` (`src/index.ts`)

Shallow embedding of the `CsvSerializer` class and the small external
collaborators its logic is built from:

* `dlv` (path get, non-throwing) and `dset` (path set, creating
  intermediate containers) — embedded from the published sources of the
  `dlv` and `dset` npm packages, which `src/index.ts` imports;
* the zod validation step `z.object(...).array().decode(...)` — embedded
  per the collaborator contract of spec §6: each column codec is a pair
  `decode : Option String → Except String JsVal`,
  `encode : JsVal → Option String`, issues are collected over the whole
  input (one per failing cell) and reported together;
* Papaparse — out of scope per spec §1; its writer (`Papa.unparse`) and
  the composition parse-after-unparse are modelled from the spec's
  collaborator contract (§4.1, §6), including the cell/header transforms
  that `src/index.ts` passes in its parse config.

JavaScript runtime values are modelled by `JsVal`.  Objects are ordered
association lists (JS insertion order); `undefined` models `undefined`.
`null` is not modelled: no codec in scope produces it, and the library
itself never creates one.  Arrays (which `dset` would create for numeric
path segments) are modelled as string-keyed containers, which has the
same get/set behaviour for the dot-paths used here.
-/

/-- A JavaScript runtime value, as far as the serializer manipulates them. -/
inductive JsVal where
  | undefined
  | bool (b : Bool)
  | num (n : Int)
  | str (s : String)
  | obj (fields : List (String × JsVal))

mutual

/-- Decidable equality on `JsVal` (written by hand because of the nested
`List` occurrence). -/
def jsDecEq : (a b : JsVal) → Decidable (a = b)
  | .undefined, .undefined => .isTrue rfl
  | .bool a, .bool b =>
    if h : a = b then .isTrue (by rw [h]) else .isFalse (fun he => h (by cases he; rfl))
  | .num a, .num b =>
    if h : a = b then .isTrue (by rw [h]) else .isFalse (fun he => h (by cases he; rfl))
  | .str a, .str b =>
    if h : a = b then .isTrue (by rw [h]) else .isFalse (fun he => h (by cases he; rfl))
  | .obj fs, .obj gs =>
    match jsDecEqFields fs gs with
    | .isTrue h => .isTrue (by rw [h])
    | .isFalse h => .isFalse (fun he => h (by cases he; rfl))
  | .undefined, .bool _ => .isFalse (fun h => by cases h)
  | .undefined, .num _ => .isFalse (fun h => by cases h)
  | .undefined, .str _ => .isFalse (fun h => by cases h)
  | .undefined, .obj _ => .isFalse (fun h => by cases h)
  | .bool _, .undefined => .isFalse (fun h => by cases h)
  | .bool _, .num _ => .isFalse (fun h => by cases h)
  | .bool _, .str _ => .isFalse (fun h => by cases h)
  | .bool _, .obj _ => .isFalse (fun h => by cases h)
  | .num _, .undefined => .isFalse (fun h => by cases h)
  | .num _, .bool _ => .isFalse (fun h => by cases h)
  | .num _, .str _ => .isFalse (fun h => by cases h)
  | .num _, .obj _ => .isFalse (fun h => by cases h)
  | .str _, .undefined => .isFalse (fun h => by cases h)
  | .str _, .bool _ => .isFalse (fun h => by cases h)
  | .str _, .num _ => .isFalse (fun h => by cases h)
  | .str _, .obj _ => .isFalse (fun h => by cases h)
  | .obj _, .undefined => .isFalse (fun h => by cases h)
  | .obj _, .bool _ => .isFalse (fun h => by cases h)
  | .obj _, .num _ => .isFalse (fun h => by cases h)
  | .obj _, .str _ => .isFalse (fun h => by cases h)

def jsDecEqFields : (fs gs : List (String × JsVal)) → Decidable (fs = gs)
  | [], [] => .isTrue rfl
  | [], _ :: _ => .isFalse (fun h => by cases h)
  | _ :: _, [] => .isFalse (fun h => by cases h)
  | (k, v) :: fs, (l, w) :: gs =>
    if hk : k = l then
      match jsDecEq v w with
      | .isTrue hv =>
        match jsDecEqFields fs gs with
        | .isTrue ht => .isTrue (by rw [hk, hv, ht])
        | .isFalse ht => .isFalse (fun he => ht (by cases he; rfl))
      | .isFalse hv => .isFalse (fun he => hv (by cases he; rfl))
    else .isFalse (fun he => hk (by cases he; rfl))

end

instance : DecidableEq JsVal := jsDecEq

/-- Association-list lookup, JS-object style (keys are unique in the lists
we build, so first match is the entry). -/
def assocGet {α : Type} : List (String × α) → String → Option α
  | [], _ => none
  | (k, v) :: rest, key => if k = key then some v else assocGet rest key

/-- Association-list assignment, JS-object style: an existing key is
updated in place (insertion order preserved), a new key is appended. -/
def assocSet {α : Type} : List (String × α) → String → α → List (String × α)
  | [], key, v => [(key, v)]
  | (k, w) :: rest, key, v =>
    if k = key then (k, v) :: rest else (k, w) :: assocSet rest key v

/-- `Object.fromEntries`: later entries override earlier ones for the same
key, key order is first-occurrence order. -/
def fromEntriesLast {α : Type} (l : List (String × α)) : List (String × α) :=
  l.foldl (fun acc kv => assocSet acc kv.1 kv.2) []

/-- The `dlv` package (path get), embedded from its source:
`obj = obj ? obj[key[p]] : undefined` per segment; property access on a
primitive yields `undefined`.  Never throws, never mutates. -/
def dlv : JsVal → List String → JsVal
  | v, [] => v
  | .obj fs, k :: ks => dlv ((assocGet fs k).getD .undefined) ks
  | _, _ :: _ => .undefined

/-- The `dset` package guards these keys: hitting one stops the walk. -/
def dsetGuard (k : String) : Bool :=
  k == "__proto__" || k == "constructor" || k == "prototype"

/-- The `dset` package (path set), embedded from its source, expressed
functionally on the field list of the target object.  An existing
intermediate that is itself an object is reused; anything else is
replaced by a fresh empty container.  (`dset` creates a JS array when the
next segment is numeric; arrays are modelled as string-keyed containers,
see the header comment.)  A guarded segment stops the walk, leaving
already-created containers in place, exactly as the `break` in `dset`
does. -/
def dsetFields : List (String × JsVal) → List String → JsVal → List (String × JsVal)
  | fs, [], _ => fs
  | fs, [k], v => if dsetGuard k then fs else assocSet fs k v
  | fs, k :: k' :: ks, v =>
    if dsetGuard k then fs
    else
      let inner : List (String × JsVal) :=
        match assocGet fs k with
        | some (.obj g) => g
        | _ => []
      assocSet fs k (.obj (dsetFields inner (k' :: ks) v))

/-- A column codec, per the collaborator contract of spec §6: `decode`
takes the raw cell (`none` = absent/`undefined` after the cell
transform) and either produces the typed value or fails with a message;
`encode` takes the typed value and produces the raw string, `none`
modelling a nullish result.  Encode is total, matching spec §4.1's
assumption that encode contracts are total over their declared input. -/
structure Codec where
  decode : Option String → Except String JsVal
  encode : JsVal → Option String

/-- One schema entry `[CSV Header, Object Keypath, ZodType]` from
`src/index.ts`. -/
structure Column where
  header : String
  keyPath : String
  codec : Codec

/-- `String.prototype.split` at a one-character separator, on the
character list: `"" ↦ [""]`, separators at the ends produce empty
segments, exactly as in JavaScript. -/
def splitOnChar (sep : Char) : List Char → List (List Char)
  | [] => [[]]
  | c :: rest =>
    if c = sep then [] :: splitOnChar sep rest
    else
      match splitOnChar sep rest with
      | [] => [[c]]
      | l :: ls => (c :: l) :: ls

/-- `kp.split('.')` — the key-path split on dots, as both `dlv` and
`dset` split it. -/
def Column.segs (c : Column) : List String :=
  (splitOnChar '.' c.keyPath.data).map String.mk

/-- `String.prototype.trim` (whitespace stripped from both ends). -/
def jsTrim (s : String) : String :=
  String.mk (((s.data.dropWhile Char.isWhitespace).reverse.dropWhile Char.isWhitespace).reverse)

/-- A data row as Papa.parse delivers it in header mode: an object
mapping header name to cell string or `undefined` (the configured
`transform` turns empty/whitespace-only cells into `undefined`). -/
def ParsedRow : Type := List (String × Option String)

/-- `row[h]` on a parsed row: a missing key reads as `undefined`. -/
def rowGet (row : ParsedRow) (h : String) : Option String :=
  match assocGet row h with
  | some o => o
  | none => none

/-- One validation issue, locating the failing cell by row index and
column header (the path zod puts on the issue). -/
structure Issue where
  row : Nat
  header : String
  message : String
deriving DecidableEq, Repr

/-- A decoded row: header name to decoded (typed) value. -/
def DecodedRow : Type := List (String × JsVal)

/-- The validation schema of `import` step 3:
`Object.fromEntries(this.schema.map(([h, _kp, zt]) => [h, zt]))`. -/
def schemaEntries (schema : List Column) : List (String × Codec) :=
  fromEntriesLast (schema.map fun c => (c.header, c.codec))

/-- Decoding one row against the composite object schema: every entry is
decoded (no short-circuit), failures are collected as issues in entry
order; a failed cell contributes `undefined` to the (then unused) decoded
row. -/
def decodeRowWith (i : Nat) (row : ParsedRow) :
    List (String × Codec) → List Issue × DecodedRow
  | [] => ([], [])
  | (h, c) :: rest =>
    let p := decodeRowWith i row rest
    match c.decode (rowGet row h) with
    | .ok v => (p.1, (h, v) :: p.2)
    | .error m => (⟨i, h, m⟩ :: p.1, (h, JsVal.undefined) :: p.2)

/-- Decoding the whole row array (`.array().decode(...)`): issues are
collected over the full input in one pass, rows indexed from `n`. -/
def decodeRowsWith (entries : List (String × Codec)) :
    Nat → List ParsedRow → List Issue × List DecodedRow
  | _, [] => ([], [])
  | n, row :: rows =>
    let p := decodeRowWith n row entries
    let q := decodeRowsWith entries (n + 1) rows
    (p.1 ++ q.1, p.2 :: q.2)

/-- The result Papa.parse hands back: data rows, structural errors and
tokenizer metadata (modelled opaquely as key/value strings). -/
structure PapaResult where
  data : List ParsedRow
  errors : List String
  meta : List (String × String)

/-- The two error shapes `import` can throw: the `AggregateError` over
tokenizer issues (carrying `papaRes.meta`), and the zod error carrying
the collected validation issues. -/
inductive ImportError where
  | tokenizer (errors : List String) (meta : List (String × String))
  | validation (issues : List Issue)
deriving DecidableEq, Repr

/-- `import` step 5: `const obj = {}; for (const [hdr, kp] of this.schema)
dset(obj, kp, row[hdr]);` — every column written in schema order into one
fresh object. -/
def buildObj (schema : List Column) (row : DecodedRow) : JsVal :=
  .obj (schema.foldl (fun fs c => dsetFields fs c.segs ((assocGet row c.header).getD .undefined)) [])

/-- `CsvSerializer.import` from the tokenizer's result onward
(`src/index.ts` lines 43–62): tokenizer errors are fatal first, then the
composite zod decode of all rows, then the per-row `dset` loop. -/
def importFromParse (schema : List Column) (res : PapaResult) :
    Except ImportError (List JsVal) :=
  if res.errors.length > 0 then
    .error (.tokenizer res.errors res.meta)
  else if (decodeRowsWith (schemaEntries schema) 0 res.data).1.length > 0 then
    .error (.validation (decodeRowsWith (schemaEntries schema) 0 res.data).1)
  else
    .ok ((decodeRowsWith (schemaEntries schema) 0 res.data).2.map (buildObj schema))

/-- One export cell (`src/index.ts` line 68):
`zt.encode(dlv(e, kp)) ?? ''` — only a nullish encode result falls back
to the empty string. -/
def encodeCell (c : Codec) (v : JsVal) : String := (c.encode v).getD ""

/-- The data row `export` builds for one record. -/
def rowCells (schema : List Column) (e : JsVal) : List String :=
  schema.map fun c => encodeCell c.codec (dlv e c.segs)

/-- The row matrix handed to `Papa.unparse`: header row first
(`[hdrRow, ...rows]`), then one row per record in input order. -/
def exportRows (schema : List Column) (entries : List JsVal) : List (List String) :=
  (schema.map Column.header) :: entries.map (rowCells schema)

/-- Modelled from the spec: Papaparse's writer quoting rule (the CSV
writer is an out-of-scope collaborator, spec §1/§4.1 step 3).  A field is
quoted when it contains the delimiter, the quote char, a line break, or
has a leading/trailing space. -/
def needsQuotes (s : String) : Bool :=
  s.data.any (fun ch => ch = ',' || ch = '"' || ch = '\n' || ch = '\r')
    || s.data.head? = some ' ' || s.data.getLast? = some ' '

/-- Modelled from the spec: writer field rendering — quote-and-escape
when needed, verbatim otherwise. -/
def escQuotes : List Char → List Char
  | [] => []
  | c :: rest => if c = '"' then '"' :: '"' :: escQuotes rest else c :: escQuotes rest

/-- Modelled from the spec: writer field rendering — quote-and-escape
(doubling the quote char) when needed, verbatim otherwise. -/
def quoteField (s : String) : String :=
  if needsQuotes s then String.mk ('"' :: escQuotes s.data ++ ['"']) else s

/-- Cells of one line joined with the default delimiter. -/
def joinCells : List String → String
  | [] => ""
  | [c] => c
  | c :: cs => c ++ "," ++ joinCells cs

/-- One serialized CSV line. -/
def unparseRow (cells : List String) : String := joinCells (cells.map quoteField)

/-- Lines joined with the writer's default line terminator. -/
def joinRows : List String → String
  | [] => ""
  | [r] => r
  | r :: rs => r ++ "\r\n" ++ joinRows rs

/-- Modelled from the spec: `Papa.unparse` under default options. -/
def papaUnparse (rows : List (List String)) : String :=
  joinRows (rows.map unparseRow)

/-- `CsvSerializer.export` (`src/index.ts` lines 65–72). -/
def exportCsv (schema : List Column) (entries : List JsVal) : String :=
  papaUnparse (exportRows schema entries)

/-- The cell transform `src/index.ts` passes to Papa.parse:
`(v) => v.trim() || undefined`. -/
def papaTransform (v : String) : Option String :=
  if jsTrim v = "" then none else some (jsTrim v)

/-- Modelled from the spec: `Papa.parse` applied to the output of
`Papa.unparse` (the tokenizer is an out-of-scope collaborator, spec §1;
§6 gives its contract).  Parsing the writer's output recovers the
written cells; header mode takes the first row as headers (trimmed by
the configured `transformHeader`), `skipEmptyLines` drops rows whose
serialized line is empty, and each cell goes through the configured
`transform`.  Duplicate headers overwrite in object-assignment order
(`fromEntriesLast`), and no structural errors arise because every
written row has exactly the header's field count. -/
def parseOfUnparsed (rows : List (List String)) : PapaResult :=
  match rows with
  | [] => ⟨[], [], []⟩
  | hdr :: dataRows =>
    ⟨(dataRows.filter (fun r => !(unparseRow r == ""))).map
        (fun cells => fromEntriesLast (List.zipWith (fun h c => (jsTrim h, papaTransform c)) hdr cells)),
      [], []⟩

/-- The composition `serializer.import(serializer.export(R))`. -/
def importOfExport (schema : List Column) (R : List JsVal) :
    Except ImportError (List JsVal) :=
  importFromParse schema (parseOfUnparsed (exportRows schema R))

/-! ## Derived notions used by the claims -/

/-- `dlv` on `undefined` stays `undefined` whatever the remaining path. -/
theorem dlv_undefined (ks : List String) : dlv .undefined ks = .undefined := by
  cases ks <;> rfl

/-- `dlv` on any non-object value with a nonempty path is `undefined`. -/
theorem dlv_not_obj (v : JsVal) (k : String) (ks : List String)
    (h : ∀ fs, v ≠ .obj fs) : dlv v (k :: ks) = .undefined := by
  cases v with
  | obj fs => exact absurd rfl (h fs)
  | _ => rfl

/-- "Encode after decode is the identity on cell strings" (claim C1's
first inverse condition): whenever a raw cell decodes, encoding the
result reproduces the cell. -/
def TrueInverseOnCells (c : Codec) : Prop :=
  ∀ s v, c.decode (some s) = .ok v → c.encode v = some s

/-- "Decode after encode is the identity on typed values" (claim C1's
second inverse condition), stated at one typed value: encoding and
decoding back returns the value, a nullish encode result decoding from
the absent cell. -/
def DecEncOnValue (c : Codec) (v : JsVal) : Prop :=
  match c.encode v with
  | some s => c.decode (some s) = .ok v
  | none => c.decode none = .ok v

/-- The row of values a record holds at the schema's key-paths, keyed by
header (later duplicate headers override, as everywhere else). -/
def recordRow (schema : List Column) (e : JsVal) : DecodedRow :=
  fromEntriesLast (schema.map fun c => (c.header, dlv e c.segs))

/-- A record conforms to the schema when it is exactly the object
`import` would build from its own values: leaves only at the schema's
key-paths (with explicit `undefined` leaves where `import` writes
them). -/
def Conforms (schema : List Column) (e : JsVal) : Prop :=
  buildObj schema (recordRow schema e) = e

instance (schema : List Column) (e : JsVal) : Decidable (Conforms schema e) := by
  unfold Conforms; infer_instance

/-- An encoded cell survives the parse-side cell transform
`(v) => v.trim() || undefined`: any non-nullish encode result is
already trimmed and nonempty. -/
def TrimStableCell (c : Codec) (v : JsVal) : Prop :=
  ∀ s, c.encode v = some s → jsTrim s = s ∧ s ≠ ""

/-- Two key-paths interfere in the `dset` write loop only when one is a
prefix of the other (equality included); this rules that out. -/
def NoPrefixRel (a b : List String) : Prop :=
  ¬ a <+: b ∧ ¬ b <+: a

instance (a b : List String) : Decidable (NoPrefixRel a b) := by
  unfold NoPrefixRel; infer_instance

/-! ## C7 — tokenizer errors are fatal, aggregated, and carry the metadata -/

/-- C7: whenever the tokenizer reports at least one structural error,
`import` throws the aggregate tokenizer error carrying all reported
issues and the tokenizer metadata; no validation is attempted and no
partial result is returned, whatever the data rows hold. -/
theorem c7_tokenizer_error_fatal (schema : List Column) (res : PapaResult)
    (h : res.errors ≠ []) :
    importFromParse schema res = .error (.tokenizer res.errors res.meta) := by
  have hl : res.errors.length > 0 := List.length_pos.mpr h
  simp [importFromParse, hl]

/-- Witness for C7 at a concrete input: a quoting error plus a data row
whose cells would also fail validation — the result is still the
tokenizer error over all reported issues with the metadata attached. -/
theorem c7_tokenizer_error_fatal_witness :
    ((["MissingQuotes", "TooFewFields"] : List String) ≠ []) ∧
    importFromParse []
        ⟨[[("ID", some "x")]], ["MissingQuotes", "TooFewFields"], [("delimiter", ",")]⟩ =
      .error (.tokenizer ["MissingQuotes", "TooFewFields"] [("delimiter", ",")]) :=
  ⟨by decide, c7_tokenizer_error_fatal _ _ (by decide)⟩

/-! ## C3 — export never fails on missing data -/

/-- C3: `export` is total by construction in this embedding (encode
contracts are total, spec §4.1), and missing data never costs a column:
every record yields exactly one cell per schema column, and a column
whose key-path is absent from the record (missing leaf or missing
intermediate, i.e. `dlv` resolves to `undefined`) renders as the empty
cell whenever its codec maps the absent value to a nullish encoding. -/
theorem c3_export_missing_data_empty_cell (schema : List Column) (e : JsVal)
    (i : Nat) (col : Column)
    (hcol : schema[i]? = some col)
    (habs : dlv e col.segs = .undefined)
    (hopt : col.codec.encode .undefined = none) :
    (rowCells schema e).length = schema.length ∧
    (rowCells schema e)[i]? = some "" := by
  constructor
  · simp [rowCells]
  · simp [rowCells, List.getElem?_map, hcol, encodeCell, habs, hopt]

/-- A codec for the witnesses below: optional, decoding everything to
`undefined` and encoding everything nullish. -/
def wOptCodec : Codec := ⟨fun _ => .ok .undefined, fun _ => none⟩

/-- Witness schema with a nested key-path. -/
def wSchemaC3 : List Column :=
  [⟨"ID", "id", wOptCodec⟩, ⟨"Score", "meta.scores.primary", wOptCodec⟩]

/-- Witness for C3: a record missing the whole `meta` subtree still
exports, with an empty cell for `meta.scores.primary`. -/
theorem c3_export_missing_data_empty_cell_witness :
    wSchemaC3[1]? = some ⟨"Score", "meta.scores.primary", wOptCodec⟩ ∧
    (rowCells wSchemaC3 (.obj [("id", .str "300")]))[1]? = some "" :=
  ⟨rfl, (c3_export_missing_data_empty_cell wSchemaC3 (.obj [("id", .str "300")]) 1
    ⟨"Score", "meta.scores.primary", wOptCodec⟩ rfl rfl rfl).2⟩

/-! ## C8 — falsy values are preserved, only nullish is coalesced -/

/-- C8: the exported cell is exactly the codec's encode output whenever
that output is non-nullish — a defined falsy leaf (e.g. `false` or `0`)
is never silently replaced by the empty cell; the empty-string fallback
applies exactly to nullish encode results. -/
theorem c8_falsy_not_coalesced (col : Column) (e : JsVal) :
    (∀ s, col.codec.encode (dlv e col.segs) = some s →
      encodeCell col.codec (dlv e col.segs) = s) ∧
    (col.codec.encode (dlv e col.segs) = none →
      encodeCell col.codec (dlv e col.segs) = "") := by
  refine ⟨fun s h => ?_, fun h => ?_⟩ <;> simp [encodeCell, h]

/-- A boolean codec (`z.stringbool()`-like) for witnesses. -/
def wBoolCodec : Codec :=
  { decode := fun
      | none => .ok .undefined
      | some s => if s = "true" then .ok (.bool true)
                  else if s = "false" then .ok (.bool false)
                  else .error "not a stringbool",
    encode := fun
      | .bool b => some (if b then "true" else "false")
      | _ => none }

/-- Witness for C8: a record with leaf `false` exports the cell
`"false"`, not the empty cell. -/
theorem c8_falsy_not_coalesced_witness :
    (wBoolCodec.encode (dlv (.obj [("isAdmin", .bool false)])
        (Column.segs ⟨"Is Admin", "isAdmin", wBoolCodec⟩)) = some "false") ∧
    encodeCell wBoolCodec (dlv (.obj [("isAdmin", .bool false)])
        (Column.segs ⟨"Is Admin", "isAdmin", wBoolCodec⟩)) = "false" :=
  ⟨rfl, (c8_falsy_not_coalesced ⟨"Is Admin", "isAdmin", wBoolCodec⟩
    (.obj [("isAdmin", .bool false)])).1 "false" rfl⟩

/-! ## C9 — export's path read is total and non-destructive -/

/-- C9: the value `export` reads for a column is obtained by the pure
function `dlv` (so the record is left unchanged by construction of the
embedding — there is no mutation to model), and `dlv` never fails on
missing data: a missing key resolves to `undefined` whatever path
remains, as does descending into a non-object intermediate. -/
theorem c9_export_read_pure_total :
    (∀ (schema : List Column) (e : JsVal) (i : Nat) (col : Column),
        schema[i]? = some col →
        (rowCells schema e)[i]? = some (encodeCell col.codec (dlv e col.segs))) ∧
    (∀ (fs : List (String × JsVal)) (k : String) (ks : List String),
        assocGet fs k = none → dlv (.obj fs) (k :: ks) = .undefined) ∧
    (∀ (v : JsVal) (k : String) (ks : List String),
        (∀ fs, v ≠ .obj fs) → dlv v (k :: ks) = .undefined) := by
  refine ⟨fun schema e i col h => ?_, fun fs k ks h => ?_, fun v k ks h => ?_⟩
  · simp [rowCells, List.getElem?_map, h]
  · simp [dlv, h, dlv_undefined]
  · exact dlv_not_obj v k ks h

/-- Witness for C9: reading `meta.scores.primary` from a record whose
`meta` is a string resolves to `undefined` and exports as a cell. -/
theorem c9_export_read_pure_total_witness :
    ([⟨"Score", "meta.scores.primary", wOptCodec⟩] : List Column)[0]? =
        some ⟨"Score", "meta.scores.primary", wOptCodec⟩ ∧
    (rowCells [⟨"Score", "meta.scores.primary", wOptCodec⟩]
        (.obj [("meta", .str "oops")]))[0]? =
      some (encodeCell wOptCodec (dlv (.obj [("meta", .str "oops")])
        (Column.segs ⟨"Score", "meta.scores.primary", wOptCodec⟩))) ∧
    assocGet ([("id", JsVal.str "1")]) "meta" = none ∧
    dlv (.obj [("id", JsVal.str "1")]) ["meta", "scores"] = .undefined :=
  ⟨rfl,
   c9_export_read_pure_total.1 [⟨"Score", "meta.scores.primary", wOptCodec⟩]
     (.obj [("meta", .str "oops")]) 0 ⟨"Score", "meta.scores.primary", wOptCodec⟩ rfl,
   rfl,
   c9_export_read_pure_total.2.1 [("id", JsVal.str "1")] "meta" ["scores"] rfl⟩

/-! ## C4 — the header row is always the first output line -/

/-- Whether a character stream contains the writer's line terminator. -/
def hasCRLF : List Char → Bool
  | [] => false
  | '\r' :: '\n' :: _ => true
  | _ :: rest => hasCRLF rest

/-- Splitting a character stream at every CRLF — the reading-back of
"lines" used to state header fidelity (`export(...).split(newline)`). -/
def splitCRLF : List Char → List (List Char)
  | [] => [[]]
  | '\r' :: '\n' :: rest => [] :: splitCRLF rest
  | c :: rest =>
    match splitCRLF rest with
    | [] => [[c]]
    | l :: ls => (c :: l) :: ls

/-- The first line of a string, with CRLF terminators. -/
def firstLine (s : String) : String :=
  String.mk ((splitCRLF s.data).headD [])

/-- Unconditional unfolding for the CRLF case of `splitCRLF`. -/
theorem splitCRLF_crlf (rest : List Char) :
    splitCRLF ('\r' :: '\n' :: rest) = [] :: splitCRLF rest := by
  rw [splitCRLF]

/-- Unconditional unfolding for the CRLF case of `hasCRLF`. -/
theorem hasCRLF_crlf (rest : List Char) : hasCRLF ('\r' :: '\n' :: rest) = true := by
  rw [hasCRLF]

/-- Unfolding for the no-CRLF-here cons case of `splitCRLF`. -/
theorem splitCRLF_cons (c : Char) (rest : List Char)
    (hne : ∀ tail, c = '\r' → rest = '\n' :: tail → False) :
    splitCRLF (c :: rest) =
      match splitCRLF rest with
      | [] => [[c]]
      | l :: ls => (c :: l) :: ls := by
  rw [splitCRLF]
  exact hne

/-- Unfolding for the no-CRLF-here cons case of `hasCRLF`. -/
theorem hasCRLF_cons (c : Char) (rest : List Char)
    (hne : ∀ tail, c = '\r' → rest = '\n' :: tail → False) :
    hasCRLF (c :: rest) = hasCRLF rest := by
  rw [hasCRLF]
  exact hne

theorem splitCRLF_ne_nil (cs : List Char) : splitCRLF cs ≠ [] := by
  induction cs using splitCRLF.induct with
  | case1 => simp [splitCRLF]
  | case2 tail ih => simp [splitCRLF_crlf]
  | case3 c rest hne hnil ih => exact absurd hnil ih
  | case4 c rest hne l ls hcons ih => rw [splitCRLF_cons c rest hne, hcons]; simp

/-- A stream with no CRLF is a single line. -/
theorem splitCRLF_eq_single (cs : List Char) (h : hasCRLF cs = false) :
    splitCRLF cs = [cs] := by
  induction cs using splitCRLF.induct with
  | case1 => rfl
  | case2 tail ih => rw [hasCRLF_crlf] at h; cases h
  | case3 c rest hne hnil ih => exact absurd hnil (splitCRLF_ne_nil rest)
  | case4 c rest hne l ls hcons ih =>
    rw [hasCRLF_cons c rest hne] at h
    rw [splitCRLF_cons c rest hne, ih h]

/-- Splitting at the first CRLF after a CRLF-free prefix. -/
theorem splitCRLF_append (a b : List Char) (h : hasCRLF a = false) :
    splitCRLF (a ++ '\r' :: '\n' :: b) = a :: splitCRLF b := by
  induction a with
  | nil => simpa using splitCRLF_crlf b
  | cons c rest ih =>
    have hne : ∀ tail, c = '\r' → rest = '\n' :: tail → False := by
      intro tail hc hr
      rw [hc, hr, hasCRLF_crlf] at h
      cases h
    have hrest : hasCRLF rest = false := by rwa [hasCRLF_cons c rest hne] at h
    have hne2 : ∀ tail, c = '\r' → rest ++ '\r' :: '\n' :: b = '\n' :: tail → False := by
      intro tail hc hr
      cases rest with
      | nil => simp at hr
      | cons r rs =>
        rw [List.cons_append] at hr
        have hr1 : r = '\n' := (List.cons_eq_cons.mp hr).1
        exact hne rs hc (by rw [hr1])
    rw [List.cons_append, splitCRLF_cons c _ hne2, ih hrest]

/-- A stream containing no carriage return contains no CRLF. -/
theorem hasCRLF_eq_false_of_no_cr (cs : List Char) (h : ∀ c ∈ cs, c ≠ '\r') :
    hasCRLF cs = false := by
  induction cs with
  | nil => rfl
  | cons c rest ih =>
    have hc : c ≠ '\r' := h c (by simp)
    rw [hasCRLF_cons c rest (fun _ h1 _ => hc h1)]
    exact ih (fun x hx => h x (by simp [hx]))

/-- Every character of a joined line comes from some cell or is the
delimiter. -/
theorem mem_data_joinCells (parts : List String) (ch : Char)
    (h : ch ∈ (joinCells parts).data) :
    (∃ p ∈ parts, ch ∈ p.data) ∨ ch = ',' := by
  induction parts with
  | nil => simp [joinCells] at h
  | cons p rest ih =>
    cases rest with
    | nil => exact .inl ⟨p, by simp, h⟩
    | cons q qs =>
      rw [show joinCells (p :: q :: qs) = p ++ "," ++ joinCells (q :: qs) from rfl,
        String.data_append, String.data_append] at h
      rcases List.mem_append.mp h with h1 | h2
      · rcases List.mem_append.mp h1 with h3 | h4
        · exact .inl ⟨p, by simp, h3⟩
        · right
          simpa using h4
      · rcases ih h2 with ⟨p', hp', hc⟩ | hc
        · exact .inl ⟨p', by simp [hp'], hc⟩
        · exact .inr hc

/-- A plain field (no quoting needed) has no carriage return. -/
theorem no_cr_of_not_needsQuotes (s : String) (h : needsQuotes s = false) :
    ∀ c ∈ s.data, c ≠ ',' ∧ c ≠ '\r' := by
  intro c hc
  unfold needsQuotes at h
  rcases Bool.or_eq_false_iff.mp h with ⟨h1, _⟩
  rcases Bool.or_eq_false_iff.mp h1 with ⟨h2, _⟩
  have := (List.any_eq_false.mp h2) c hc
  simp at this
  exact ⟨this.1.1.1, this.2⟩

/-- Plain fields pass through the writer unquoted. -/
theorem map_quoteField_id (l : List String) (h : ∀ s ∈ l, needsQuotes s = false) :
    l.map quoteField = l := by
  induction l with
  | nil => rfl
  | cons s rest ih =>
    have hs : needsQuotes s = false := h s (List.mem_cons_self s rest)
    rw [List.map_cons, ih (fun x hx => h x (List.mem_cons_of_mem s hx))]
    simp [quoteField, hs]

/-- C4: for every record sequence (the empty one included), the header
row is the first row handed to the writer, and the first CRLF-delimited
line of the produced text is exactly the schema's headers joined in
schema order with the delimiter — regardless of record content —
provided the header names themselves need no quoting. -/
theorem c4_header_fidelity (schema : List Column) (entries : List JsVal)
    (hplain : ∀ h ∈ schema.map Column.header, needsQuotes h = false) :
    (exportRows schema entries).head? = some (schema.map Column.header) ∧
    firstLine (exportCsv schema entries) = joinCells (schema.map Column.header) := by
  refine ⟨rfl, ?_⟩
  have hrow : unparseRow (schema.map Column.header) = joinCells (schema.map Column.header) := by
    rw [unparseRow, map_quoteField_id _ hplain]
  have hnocr : hasCRLF (joinCells (schema.map Column.header)).data = false := by
    refine hasCRLF_eq_false_of_no_cr _ (fun c hc => ?_)
    rcases mem_data_joinCells _ c hc with ⟨p, hp, hcp⟩ | hcomma
    · exact (no_cr_of_not_needsQuotes p (hplain p hp) c hcp).2
    · rw [hcomma]; decide
  have hcsv : exportCsv schema entries =
      joinRows (unparseRow (schema.map Column.header) ::
        (entries.map (rowCells schema)).map unparseRow) := rfl
  rw [hcsv, hrow]
  cases hrest : (entries.map (rowCells schema)).map unparseRow with
  | nil =>
    rw [show joinRows [joinCells (schema.map Column.header)] =
      joinCells (schema.map Column.header) from rfl]
    rw [firstLine, splitCRLF_eq_single _ hnocr]
    rfl
  | cons r rs =>
    rw [show joinRows (joinCells (schema.map Column.header) :: r :: rs) =
      joinCells (schema.map Column.header) ++ "\r\n" ++ joinRows (r :: rs) from rfl]
    rw [firstLine, String.data_append, String.data_append]
    rw [show ("\r\n").data = ['\r', '\n'] from rfl, List.append_assoc]
    rw [show ['\r', '\n'] ++ (joinRows (r :: rs)).data =
      '\r' :: '\n' :: (joinRows (r :: rs)).data from rfl]
    rw [splitCRLF_append _ _ hnocr]
    rfl

/-- Witness for C4: the two-column schema from the spec scenario with no
records — the output's first (and only) line is `"ID,Score"`. -/
theorem c4_header_fidelity_witness :
    (∀ h ∈ ([⟨"ID", "id", wOptCodec⟩, ⟨"Score", "meta.scores.primary", wOptCodec⟩] :
        List Column).map Column.header, needsQuotes h = false) ∧
    (exportRows [⟨"ID", "id", wOptCodec⟩, ⟨"Score", "meta.scores.primary", wOptCodec⟩]
        []).head? = some ["ID", "Score"] ∧
    firstLine (exportCsv [⟨"ID", "id", wOptCodec⟩, ⟨"Score", "meta.scores.primary", wOptCodec⟩]
        []) = joinCells ["ID", "Score"] :=
  ⟨by decide,
   (c4_header_fidelity _ [] (by decide)).1,
   (c4_header_fidelity _ [] (by decide)).2⟩

/-! ## The `dset`/`dlv` write-read lemmas behind C5, C6 and C10 -/

theorem assocGet_assocSet_self {α : Type} (l : List (String × α)) (k : String) (v : α) :
    assocGet (assocSet l k v) k = some v := by
  induction l with
  | nil => simp [assocSet, assocGet]
  | cons p rest ih =>
    by_cases h : p.1 = k
    · simp [assocSet, assocGet, h]
    · simp [assocSet, assocGet, h, ih]

theorem assocGet_assocSet_ne {α : Type} (l : List (String × α)) (k k' : String) (v : α)
    (h : k ≠ k') : assocGet (assocSet l k' v) k = assocGet l k := by
  have h' : ¬ (k' = k) := fun he => h he.symm
  induction l with
  | nil => simp [assocSet, assocGet, h']
  | cons p rest ih =>
    obtain ⟨pk, pv⟩ := p
    by_cases hp : pk = k'
    · subst hp
      simp [assocSet, assocGet, h']
    · by_cases hk : pk = k
      · simp [assocSet, assocGet, hp, hk, h]
      · simp [assocSet, assocGet, hp, hk, ih]

/-- Writing a (guard-free, nonempty) path and reading it back yields the
written value, whatever was there before. -/
theorem dlv_dsetFields_self (ks : List String) (hne : ks ≠ [])
    (hg : ∀ k ∈ ks, dsetGuard k = false) :
    ∀ (fs : List (String × JsVal)) (v : JsVal),
      dlv (.obj (dsetFields fs ks v)) ks = v := by
  induction ks with
  | nil => cases hne rfl
  | cons k tail ih =>
    intro fs v
    have hk : dsetGuard k = false := hg k (by simp)
    cases tail with
    | nil => simp [dsetFields, hk, dlv, assocGet_assocSet_self]
    | cons k' rest =>
      simp only [dsetFields, hk, Bool.false_eq_true, if_false, dlv,
        assocGet_assocSet_self, Option.getD_some]
      exact ih (by simp) (fun x hx => hg x (List.mem_cons_of_mem k hx)) _ v

/-- Writing one path never disturbs reading another when neither path is
a prefix of the other (guarded writes disturb nothing at all). -/
theorem dlv_dsetFields_frame (ks' ks : List String) (h : NoPrefixRel ks ks') :
    ∀ (fs : List (String × JsVal)) (v : JsVal),
      dlv (.obj (dsetFields fs ks' v)) ks = dlv (.obj fs) ks := by
  induction ks' generalizing ks with
  | nil => exact absurd (List.nil_prefix) h.2
  | cons k' tail' ih =>
    intro fs v
    obtain ⟨k, rest, rfl⟩ : ∃ k rest, ks = k :: rest := by
      cases ks with
      | nil => exact absurd (List.nil_prefix) h.1
      | cons k rest => exact ⟨k, rest, rfl⟩
    by_cases hg : dsetGuard k' = true
    · cases tail' with
      | nil => simp [dsetFields, hg]
      | cons a b => simp [dsetFields, hg]
    · have hg' : dsetGuard k' = false := by simpa using hg
      cases tail' with
      | nil =>
        have hkk : k ≠ k' := by
          intro he
          exact h.2 (by rw [he]; exact ⟨rest, rfl⟩)
        simp [dsetFields, hg', dlv, assocGet_assocSet_ne fs k k' v hkk]
      | cons a b =>
        by_cases hkk : k = k'
        · subst hkk
          have h' : NoPrefixRel rest (a :: b) := by
            constructor
            · intro hp
              exact h.1 (List.cons_prefix_cons.mpr ⟨rfl, hp⟩)
            · intro hp
              exact h.2 (List.cons_prefix_cons.mpr ⟨rfl, hp⟩)
          obtain ⟨r, rs, rfl⟩ : ∃ r rs, rest = r :: rs := by
            cases rest with
            | nil => exact absurd (List.cons_prefix_cons.mpr ⟨rfl, List.nil_prefix⟩) h.1
            | cons r rs => exact ⟨r, rs, rfl⟩
          cases hfs : assocGet fs k with
          | none =>
            simp [dsetFields, hg', hfs, dlv, assocGet_assocSet_self,
              ih _ h', assocGet, dlv_undefined]
          | some w =>
            cases w with
            | obj g =>
              simp [dsetFields, hg', hfs, dlv, assocGet_assocSet_self, ih _ h']
            | undefined =>
              simp [dsetFields, hg', hfs, dlv, assocGet_assocSet_self,
                ih _ h', assocGet, dlv_undefined]
            | bool b' =>
              simp [dsetFields, hg', hfs, dlv, assocGet_assocSet_self,
                ih _ h', assocGet, dlv_undefined]
            | num n =>
              simp [dsetFields, hg', hfs, dlv, assocGet_assocSet_self,
                ih _ h', assocGet, dlv_undefined]
            | str s =>
              simp [dsetFields, hg', hfs, dlv, assocGet_assocSet_self,
                ih _ h', assocGet, dlv_undefined]
        · simp [dsetFields, hg', dlv, assocGet_assocSet_ne fs k k' _ hkk]

/-- The whole write loop of later columns never disturbs a path that is
prefix-unrelated to each of their key-paths. -/
theorem dlv_foldl_frame (row : DecodedRow) (cols : List Column) (ks : List String)
    (h : ∀ c ∈ cols, NoPrefixRel ks c.segs) :
    ∀ fs : List (String × JsVal),
      dlv (.obj (cols.foldl
        (fun fs c => dsetFields fs c.segs ((assocGet row c.header).getD .undefined)) fs)) ks =
      dlv (.obj fs) ks := by
  induction cols with
  | nil => intro fs; rfl
  | cons c cs ih =>
    intro fs
    rw [List.foldl_cons, ih (fun x hx => h x (List.mem_cons_of_mem c hx))]
    exact dlv_dsetFields_frame c.segs ks (h c (List.mem_cons_self c cs)) fs _

/-- Reading a column's key-path out of the object `import` builds yields
that column's row value, provided no later column's key-path is
prefix-related to it. -/
theorem buildObj_read (l1 : List Column) (col : Column) (l2 : List Column)
    (row : DecodedRow)
    (hne : col.segs ≠ []) (hg : ∀ k ∈ col.segs, dsetGuard k = false)
    (hframe : ∀ c ∈ l2, NoPrefixRel col.segs c.segs) :
    dlv (buildObj (l1 ++ col :: l2) row) col.segs =
      (assocGet row col.header).getD .undefined := by
  unfold buildObj
  rw [List.foldl_append, List.foldl_cons, dlv_foldl_frame row l2 col.segs hframe]
  exact dlv_dsetFields_self col.segs hne hg _ _

/-! ## Properties of the composite validation schema and the decode pass -/

theorem assocGet_eq_none_iff {α : Type} (l : List (String × α)) (k : String) :
    assocGet l k = none ↔ k ∉ l.map Prod.fst := by
  induction l with
  | nil => simp [assocGet]
  | cons p rest ih =>
    by_cases h : p.1 = k
    · simp [assocGet, h]
    · have h' : ¬ k = p.1 := fun he => h he.symm
      rw [assocGet, if_neg h, ih]
      simp [h']

theorem keys_assocSet {α : Type} (l : List (String × α)) (k : String) (v : α) :
    (assocSet l k v).map Prod.fst =
      if (assocGet l k).isSome then l.map Prod.fst else l.map Prod.fst ++ [k] := by
  induction l with
  | nil => simp [assocSet, assocGet]
  | cons p rest ih =>
    by_cases h : p.1 = k
    · simp [assocSet, assocGet, h]
    · rw [show assocSet (p :: rest) k v = p :: assocSet rest k v by simp [assocSet, h]]
      rw [List.map_cons, ih]
      rw [show assocGet (p :: rest) k = assocGet rest k by simp [assocGet, h]]
      by_cases hs : (assocGet rest k).isSome <;> simp [hs]

theorem nodup_keys_assocSet {α : Type} (l : List (String × α)) (k : String) (v : α)
    (h : (l.map Prod.fst).Nodup) : ((assocSet l k v).map Prod.fst).Nodup := by
  rw [keys_assocSet]
  cases hs : (assocGet l k) with
  | some w => simpa [hs]
  | none =>
    have : k ∉ l.map Prod.fst := (assocGet_eq_none_iff l k).mp hs
    simp [hs, List.nodup_append, h, this]

/-- The keys of an `Object.fromEntries` result are distinct. -/
theorem fromEntriesLast_keys_nodup {α : Type} (l : List (String × α)) :
    ((fromEntriesLast l).map Prod.fst).Nodup := by
  suffices hgen : ∀ acc : List (String × α), (acc.map Prod.fst).Nodup →
      ((l.foldl (fun acc kv => assocSet acc kv.1 kv.2) acc).map Prod.fst).Nodup by
    exact hgen [] (by simp)
  induction l with
  | nil => intro acc hacc; simpa
  | cons p rest ih =>
    intro acc hacc
    exact ih _ (nodup_keys_assocSet acc p.1 p.2 hacc)

theorem assocGet_append {α : Type} (l1 l2 : List (String × α)) (k : String) :
    assocGet (l1 ++ l2) k =
      match assocGet l1 k with
      | some v => some v
      | none => assocGet l2 k := by
  induction l1 with
  | nil => simp [assocGet]
  | cons p rest ih =>
    by_cases h : p.1 = k <;> simp [assocGet, h, ih]

theorem assocSet_append_of_absent {α : Type} (l : List (String × α)) (k : String) (v : α)
    (h : assocGet l k = none) : assocSet l k v = l ++ [(k, v)] := by
  induction l with
  | nil => simp [assocSet]
  | cons p rest ih =>
    by_cases hp : p.1 = k
    · rw [assocGet, if_pos hp] at h; cases h
    · rw [assocGet, if_neg hp] at h
      simp [assocSet, hp, ih h]

/-- On a duplicate-free entry list, `Object.fromEntries` is the identity. -/
theorem fromEntriesLast_eq_self {α : Type} (l : List (String × α))
    (h : (l.map Prod.fst).Nodup) : fromEntriesLast l = l := by
  suffices hgen : ∀ acc : List (String × α),
      (∀ x ∈ l.map Prod.fst, assocGet acc x = none) → (l.map Prod.fst).Nodup →
      l.foldl (fun acc kv => assocSet acc kv.1 kv.2) acc = acc ++ l by
    simpa using hgen [] (by simp [assocGet]) h
  clear h
  induction l with
  | nil => intro acc _ _; simp
  | cons p rest ih =>
    intro acc hacc hnd
    rw [List.foldl_cons, assocSet_append_of_absent acc p.1 p.2 (hacc p.1 (by simp))]
    have hnd' := hnd
    rw [List.map_cons] at hnd'
    have hpm : p.1 ∉ rest.map Prod.fst := (List.nodup_cons.mp hnd').1
    have hacc' : ∀ x ∈ rest.map Prod.fst, assocGet (acc ++ [(p.1, p.2)]) x = none := by
      intro x hx
      have hxp : ¬ p.1 = x := fun he => hpm (he ▸ hx)
      rw [assocGet_append, hacc x (by simp [hx])]
      simp [assocGet, hxp]
    rw [ih (acc ++ [(p.1, p.2)]) hacc' (List.nodup_cons.mp hnd').2]
    simp

/-- With duplicate-free headers, the composite validation schema is just
the schema's header/codec pairs in schema order. -/
theorem schemaEntries_eq_of_nodup (schema : List Column)
    (h : (schema.map Column.header).Nodup) :
    schemaEntries schema = schema.map (fun c => (c.header, c.codec)) := by
  apply fromEntriesLast_eq_self
  have heq : (schema.map (fun c => (c.header, c.codec))).map Prod.fst =
      schema.map Column.header := by
    simp [List.map_map]
  rw [heq]
  exact h

/-- Which issues one row contributes: exactly one per entry whose decode
fails on that row's cell, tagged with the row index and the header. -/
theorem decodeRowWith_issue_mem (i : Nat) (row : ParsedRow)
    (entries : List (String × Codec)) (i' : Nat) (h : String) (m : String) :
    (⟨i', h, m⟩ : Issue) ∈ (decodeRowWith i row entries).1 ↔
      i' = i ∧ ∃ c, (h, c) ∈ entries ∧ c.decode (rowGet row h) = .error m := by
  induction entries with
  | nil => simp [decodeRowWith]
  | cons p rest ih =>
    obtain ⟨h', c'⟩ := p
    cases hd : c'.decode (rowGet row h') with
    | ok v =>
      rw [show (decodeRowWith i row ((h', c') :: rest)).1 =
        (decodeRowWith i row rest).1 by simp [decodeRowWith, hd]]
      rw [ih]
      constructor
      · rintro ⟨rfl, c, hc, hdec⟩
        exact ⟨rfl, c, by simp [hc], hdec⟩
      · rintro ⟨rfl, c, hc, hdec⟩
        rcases List.mem_cons.mp hc with he | hmem
        · cases he
          rw [hd] at hdec
          cases hdec
        · exact ⟨rfl, c, hmem, hdec⟩
    | error m' =>
      rw [show (decodeRowWith i row ((h', c') :: rest)).1 =
        ⟨i, h', m'⟩ :: (decodeRowWith i row rest).1 by simp [decodeRowWith, hd]]
      rw [List.mem_cons, ih]
      constructor
      · rintro (he | ⟨rfl, c, hc, hdec⟩)
        · cases he
          exact ⟨rfl, c', by simp, hd⟩
        · exact ⟨rfl, c, by simp [hc], hdec⟩
      · rintro ⟨rfl, c, hc, hdec⟩
        rcases List.mem_cons.mp hc with he | hmem
        · cases he
          rw [hd] at hdec
          cases hdec
          exact .inl rfl
        · exact .inr ⟨rfl, c, hmem, hdec⟩

/-- Every issue a row contributes carries that row's index. -/
theorem decodeRowWith_issue_row (i : Nat) (row : ParsedRow)
    (entries : List (String × Codec)) :
    ∀ iss ∈ (decodeRowWith i row entries).1, iss.row = i := by
  induction entries with
  | nil => simp [decodeRowWith]
  | cons p rest ih =>
    intro iss hiss
    obtain ⟨h', c'⟩ := p
    cases hd : c'.decode (rowGet row h') with
    | ok v =>
      rw [show (decodeRowWith i row ((h', c') :: rest)).1 =
        (decodeRowWith i row rest).1 by simp [decodeRowWith, hd]] at hiss
      exact ih iss hiss
    | error m' =>
      rw [show (decodeRowWith i row ((h', c') :: rest)).1 =
        ⟨i, h', m'⟩ :: (decodeRowWith i row rest).1 by simp [decodeRowWith, hd]] at hiss
      rcases List.mem_cons.mp hiss with he | hmem
      · rw [he]
      · exact ih iss hmem

/-- The issue headers a row contributes are distinct when the entry keys
are. -/
theorem decodeRowWith_issue_headers_nodup (i : Nat) (row : ParsedRow)
    (entries : List (String × Codec)) (hkeys : (entries.map Prod.fst).Nodup) :
    ((decodeRowWith i row entries).1.map Issue.header).Nodup := by
  induction entries with
  | nil => simp [decodeRowWith]
  | cons p rest ih =>
    obtain ⟨h', c'⟩ := p
    rw [List.map_cons] at hkeys
    have hk := List.nodup_cons.mp hkeys
    cases hd : c'.decode (rowGet row h') with
    | ok v =>
      rw [show (decodeRowWith i row ((h', c') :: rest)).1 =
        (decodeRowWith i row rest).1 by simp [decodeRowWith, hd]]
      exact ih hk.2
    | error m' =>
      rw [show (decodeRowWith i row ((h', c') :: rest)).1 =
        ⟨i, h', m'⟩ :: (decodeRowWith i row rest).1 by simp [decodeRowWith, hd]]
      rw [List.map_cons, List.nodup_cons]
      refine ⟨fun hmem => ?_, ih hk.2⟩
      rcases List.mem_map.mp hmem with ⟨iss, hiss, hhdr⟩
      obtain ⟨ir, ihdr, im⟩ := iss
      rcases (decodeRowWith_issue_mem i row rest ir ihdr im).mp hiss with ⟨_, c, hc, _⟩
      have hhdr' : ihdr = h' := hhdr
      exact hk.1 (hhdr' ▸ List.mem_map.mpr ⟨(ihdr, c), hc, rfl⟩)

/-- The decoded value for an entry whose decode succeeded, looked up in
the decoded row (entry keys distinct). -/
theorem decodeRowWith_lookup (i : Nat) (row : ParsedRow)
    (entries : List (String × Codec)) (hkeys : (entries.map Prod.fst).Nodup)
    (h : String) (c : Codec) (v : JsVal)
    (hmem : (h, c) ∈ entries) (hdec : c.decode (rowGet row h) = .ok v) :
    assocGet (decodeRowWith i row entries).2 h = some v := by
  induction entries with
  | nil => cases hmem
  | cons p rest ih =>
    obtain ⟨h', c'⟩ := p
    rw [List.map_cons] at hkeys
    have hk := List.nodup_cons.mp hkeys
    rcases List.mem_cons.mp hmem with he | hmem'
    · cases he
      rw [show (decodeRowWith i row ((h, c) :: rest)).2 =
        (h, v) :: (decodeRowWith i row rest).2 by simp [decodeRowWith, hdec]]
      simp [assocGet]
    · have hne : ¬ h' = h := by
        intro he
        subst he
        exact hk.1 (List.mem_map.mpr ⟨(h', c), hmem', rfl⟩)
      cases hd : c'.decode (rowGet row h') with
      | ok w =>
        rw [show (decodeRowWith i row ((h', c') :: rest)).2 =
          (h', w) :: (decodeRowWith i row rest).2 by simp [decodeRowWith, hd]]
        rw [assocGet, if_neg hne]
        exact ih hk.2 hmem'
      | error m' =>
        rw [show (decodeRowWith i row ((h', c') :: rest)).2 =
          (h', JsVal.undefined) :: (decodeRowWith i row rest).2 by simp [decodeRowWith, hd]]
        rw [assocGet, if_neg hne]
        exact ih hk.2 hmem'

/-- The decoded rows line up with the input rows (issues or not). -/
theorem decodeRowsWith_get (entries : List (String × Codec)) (n : Nat)
    (rows : List ParsedRow) (j : Nat) :
    (decodeRowsWith entries n rows).2[j]? =
      (rows[j]?).map (fun row => (decodeRowWith (n + j) row entries).2) := by
  induction rows generalizing n j with
  | nil => simp [decodeRowsWith]
  | cons row rows ih =>
    cases j with
    | zero => simp [decodeRowsWith]
    | succ j =>
      rw [show (decodeRowsWith entries n (row :: rows)).2 =
        (decodeRowWith n row entries).2 :: (decodeRowsWith entries (n + 1) rows).2
        from rfl]
      rw [List.getElem?_cons_succ, List.getElem?_cons_succ, ih (n + 1) j]
      have : n + 1 + j = n + (j + 1) := by omega
      rw [this]

/-- Which issues the whole pass produces: exactly one per failing
(row, header) cell, over the full input. -/
theorem decodeRowsWith_issue_mem (entries : List (String × Codec)) (n : Nat)
    (rows : List ParsedRow) (i : Nat) (h : String) (m : String) :
    (⟨i, h, m⟩ : Issue) ∈ (decodeRowsWith entries n rows).1 ↔
      ∃ j row, i = n + j ∧ rows[j]? = some row ∧
        ∃ c, (h, c) ∈ entries ∧ c.decode (rowGet row h) = .error m := by
  induction rows generalizing n with
  | nil => simp [decodeRowsWith]
  | cons row rows ih =>
    rw [show (decodeRowsWith entries n (row :: rows)).1 =
      (decodeRowWith n row entries).1 ++ (decodeRowsWith entries (n + 1) rows).1
      from rfl]
    rw [List.mem_append, decodeRowWith_issue_mem, ih (n + 1)]
    constructor
    · rintro (⟨rfl, c, hc, hdec⟩ | ⟨j, row', rfl, hrow, c, hc, hdec⟩)
      · exact ⟨0, row, by omega, by simp, c, hc, hdec⟩
      · exact ⟨j + 1, row', by omega, by simpa using hrow, c, hc, hdec⟩
    · rintro ⟨j, row', hij, hrow, c, hc, hdec⟩
      cases j with
      | zero =>
        rw [List.getElem?_cons_zero] at hrow
        cases hrow
        exact .inl ⟨by omega, c, hc, hdec⟩
      | succ j =>
        rw [List.getElem?_cons_succ] at hrow
        exact .inr ⟨j, row', by omega, hrow, c, hc, hdec⟩

/-- Issues produced from row `n` onwards have row index at least `n`. -/
theorem decodeRowsWith_issue_row_ge (entries : List (String × Codec)) (n : Nat)
    (rows : List ParsedRow) :
    ∀ iss ∈ (decodeRowsWith entries n rows).1, n ≤ iss.row := by
  induction rows generalizing n with
  | nil => simp [decodeRowsWith]
  | cons row rows ih =>
    intro iss hiss
    rw [show (decodeRowsWith entries n (row :: rows)).1 =
      (decodeRowWith n row entries).1 ++ (decodeRowsWith entries (n + 1) rows).1
      from rfl] at hiss
    rcases List.mem_append.mp hiss with h1 | h2
    · rw [decodeRowWith_issue_row n row entries iss h1]
    · have := ih (n + 1) iss h2
      omega

/-- One issue per failing (row, header) pair: the (row index, header)
projections of the issue list are pairwise distinct when the entry keys
are distinct. -/
theorem decodeRowsWith_pairs_nodup (entries : List (String × Codec)) (n : Nat)
    (rows : List ParsedRow) (hkeys : (entries.map Prod.fst).Nodup) :
    ((decodeRowsWith entries n rows).1.map (fun iss => (iss.row, iss.header))).Nodup := by
  induction rows generalizing n with
  | nil => simp [decodeRowsWith]
  | cons row rows ih =>
    rw [show (decodeRowsWith entries n (row :: rows)).1 =
      (decodeRowWith n row entries).1 ++ (decodeRowsWith entries (n + 1) rows).1
      from rfl]
    rw [List.map_append, List.nodup_append]
    refine ⟨?_, ih (n + 1), ?_⟩
    · have hrow := decodeRowWith_issue_row n row entries
      have hnd := decodeRowWith_issue_headers_nodup n row entries hkeys
      have hmapeq : (decodeRowWith n row entries).1.map (fun iss => (iss.row, iss.header)) =
          ((decodeRowWith n row entries).1.map Issue.header).map (fun h => (n, h)) := by
        rw [List.map_map]
        exact List.map_congr_left (fun iss hiss => by rw [Function.comp, hrow iss hiss])
      rw [hmapeq]
      exact hnd.map (fun a b hab => congrArg Prod.snd hab)
    · intro x hx hy
      rcases List.mem_map.mp hx with ⟨ix, hix, rfl⟩
      rcases List.mem_map.mp hy with ⟨iy, hiy, heq⟩
      have h1 : ix.row = n := decodeRowWith_issue_row n row entries ix hix
      have h2 : n + 1 ≤ iy.row := decodeRowsWith_issue_row_ge entries (n + 1) rows iy hiy
      have h3 : iy.row = ix.row := congrArg Prod.fst heq
      omega

/-! ## C2 — validation is all-or-nothing, aggregated over the whole input -/

/-- The validation issues `import` collects for a given parsed input. -/
def importIssues (schema : List Column) (rows : List ParsedRow) : List Issue :=
  (decodeRowsWith (schemaEntries schema) 0 rows).1

/-- C2: when tokenization is clean but at least one cell fails its
column's decode, `import` throws one structured error carrying the whole
issue list — which contains an issue exactly for each failing
(row, column) cell over the full input, one per pair — and returns no
records at all. -/
theorem c2_validation_all_or_nothing (schema : List Column) (res : PapaResult)
    (herr : res.errors = [])
    (hfail : importIssues schema res.data ≠ []) :
    importFromParse schema res = .error (.validation (importIssues schema res.data)) ∧
    (∀ i h m, (⟨i, h, m⟩ : Issue) ∈ importIssues schema res.data ↔
      ∃ row, res.data[i]? = some row ∧
        ∃ c, (h, c) ∈ schemaEntries schema ∧ c.decode (rowGet row h) = .error m) ∧
    ((importIssues schema res.data).map (fun iss => (iss.row, iss.header))).Nodup := by
  refine ⟨?_, ?_, ?_⟩
  · have hlen : (importIssues schema res.data).length > 0 := List.length_pos.mpr hfail
    rw [importIssues] at hlen
    simp [importFromParse, herr, hlen, importIssues]
  · intro i h m
    rw [importIssues, decodeRowsWith_issue_mem]
    constructor
    · rintro ⟨j, row, rfl, hrow, hc⟩
      refine ⟨row, ?_, hc⟩
      simpa using hrow
    · rintro ⟨row, hrow, hc⟩
      exact ⟨i, row, by omega, hrow, hc⟩
  · exact decodeRowsWith_pairs_nodup _ 0 _ (fromEntriesLast_keys_nodup _)

/-- A required string codec for witnesses (`z.string().min(1)`-like). -/
def wStrCodec : Codec :=
  { decode := fun
      | none => .error "required"
      | some s => .ok (.str s),
    encode := fun
      | .str s => some s
      | _ => none }

/-- A digits-only integer codec for witnesses (value irrelevant). -/
def wIntCodec : Codec :=
  { decode := fun
      | none => .ok .undefined
      | some s => if s.data.all Char.isDigit then .ok (.num 0) else .error "regex",
    encode := fun
      | .num _ => some "0"
      | _ => none }

/-- The two-column witness schema for C2. -/
def wSchemaC2 : List Column :=
  [⟨"ID", "id", wStrCodec⟩, ⟨"Score", "meta.scores.primary", wIntCodec⟩]

/-- The parsed input for the C2 witness: row 1 is fine, row 2 has the
malformed numeric cell `"nan"`. -/
def wResC2 : PapaResult :=
  ⟨[[("ID", some "101"), ("Score", some "95")],
    [("ID", some "103"), ("Score", some "nan")]], [], []⟩

/-- Witness for C2 at the spec's §8 scenario: `import` throws the
validation error listing exactly the offending (row 1, `Score`) cell and
returns nothing. -/
theorem c2_validation_all_or_nothing_witness :
    wResC2.errors = [] ∧
    importIssues wSchemaC2 wResC2.data ≠ [] ∧
    (importFromParse wSchemaC2 wResC2 =
        .error (.validation (importIssues wSchemaC2 wResC2.data)) ∧
      (∀ i h m, (⟨i, h, m⟩ : Issue) ∈ importIssues wSchemaC2 wResC2.data ↔
        ∃ row, wResC2.data[i]? = some row ∧
          ∃ c, (h, c) ∈ schemaEntries wSchemaC2 ∧ c.decode (rowGet row h) = .error m) ∧
      ((importIssues wSchemaC2 wResC2.data).map (fun iss => (iss.row, iss.header))).Nodup) ∧
    importIssues wSchemaC2 wResC2.data = [⟨1, "Score", "regex"⟩] :=
  ⟨rfl, by decide, c2_validation_all_or_nothing wSchemaC2 wResC2 rfl (by decide), by decide⟩

/-- Anatomy of a successful `import`: clean tokenization, an empty issue
list, and the objects built per decoded row in order. -/
theorem importFromParse_ok (schema : List Column) (res : PapaResult)
    (objs : List JsVal) (h : importFromParse schema res = .ok objs) :
    res.errors = [] ∧ (decodeRowsWith (schemaEntries schema) 0 res.data).1 = [] ∧
    objs = (decodeRowsWith (schemaEntries schema) 0 res.data).2.map (buildObj schema) := by
  unfold importFromParse at h
  by_cases h1 : res.errors.length > 0
  · rw [if_pos h1] at h
    cases h
  · rw [if_neg h1] at h
    by_cases h2 : (decodeRowsWith (schemaEntries schema) 0 res.data).1.length > 0
    · rw [if_pos h2] at h
      cases h
    · rw [if_neg h2] at h
      cases h
      refine ⟨?_, ?_, rfl⟩
      · exact List.length_eq_zero.mp (by omega)
      · exact List.length_eq_zero.mp (by omega)

/-- The object a successful `import` returns for data row `i`, at a
column whose key-path no later column's key-path is prefix-related to:
reading that path yields exactly the column's decoded value. -/
theorem importedObj_read (l1 : List Column) (col : Column) (l2 : List Column)
    (res : PapaResult) (objs : List JsVal) (i : Nat) (row : ParsedRow) (v : JsVal)
    (hnodup : (((l1 ++ col :: l2)).map Column.header).Nodup)
    (hne : col.segs ≠ [])
    (hg : ∀ k ∈ col.segs, dsetGuard k = false)
    (hframe : ∀ c ∈ l2, NoPrefixRel col.segs c.segs)
    (hrow : res.data[i]? = some row)
    (hdec : col.codec.decode (rowGet row col.header) = .ok v)
    (himp : importFromParse (l1 ++ col :: l2) res = .ok objs) :
    ∃ obj, objs[i]? = some obj ∧ dlv obj col.segs = v := by
  obtain ⟨herr, hiss, hobjs⟩ := importFromParse_ok _ res objs himp
  have hmem : (col.header, col.codec) ∈ schemaEntries (l1 ++ col :: l2) := by
    rw [schemaEntries_eq_of_nodup _ hnodup]
    exact List.mem_map.mpr ⟨col, by simp, rfl⟩
  have hkeys : ((schemaEntries (l1 ++ col :: l2)).map Prod.fst).Nodup :=
    fromEntriesLast_keys_nodup _
  refine ⟨buildObj (l1 ++ col :: l2) (decodeRowWith i row (schemaEntries (l1 ++ col :: l2))).2,
    ?_, ?_⟩
  · rw [hobjs, List.getElem?_map, decodeRowsWith_get, hrow]
    simp
  · rw [buildObj_read l1 col l2 _ hne hg hframe]
    rw [decodeRowWith_lookup i row _ hkeys col.header col.codec v hmem hdec]
    rfl

/-! ## C5 — empty cells decode to "no value"; nullish leaves export empty -/

/-- C5: (import half) for an optional column — one whose codec decodes
the absent cell to `undefined` — an empty or whitespace-only raw cell
(which the configured transform turns into `undefined`) leaves the
corresponding key-path reading as "no value" in the imported record,
provided no later column's key-path is prefix-related to it; (export
half) a leaf that reads as `undefined` renders as the empty cell when
the codec encodes the absent value nullishly. -/
theorem c5_absence_mapping :
    (∀ (l1 : List Column) (col : Column) (l2 : List Column) (res : PapaResult)
        (objs : List JsVal) (i : Nat) (row : ParsedRow) (cRaw : String),
        ((l1 ++ col :: l2).map Column.header).Nodup →
        col.segs ≠ [] →
        (∀ k ∈ col.segs, dsetGuard k = false) →
        (∀ c ∈ l2, NoPrefixRel col.segs c.segs) →
        col.codec.decode none = .ok .undefined →
        jsTrim cRaw = "" →
        res.data[i]? = some row →
        rowGet row col.header = papaTransform cRaw →
        importFromParse (l1 ++ col :: l2) res = .ok objs →
        ∃ obj, objs[i]? = some obj ∧ dlv obj col.segs = .undefined) ∧
    (∀ (col : Column) (e : JsVal),
        dlv e col.segs = .undefined →
        col.codec.encode .undefined = none →
        encodeCell col.codec (dlv e col.segs) = "") := by
  constructor
  · intro l1 col l2 res objs i row cRaw hnodup hne hg hframe hopt htrim hrow hcell himp
    have hpt : papaTransform cRaw = none := by simp [papaTransform, htrim]
    have hdec : col.codec.decode (rowGet row col.header) = .ok .undefined := by
      rw [hcell, hpt]
      exact hopt
    exact importedObj_read l1 col l2 res objs i row .undefined hnodup hne hg hframe hrow hdec himp
  · intro col e habs hopt
    rw [habs]
    simp [encodeCell, hopt]

/-- The one-column witness setup for C5: an optional `Status` column and
a whitespace-only cell. -/
def wResC5 : PapaResult := ⟨[[("Status", none)]], [], []⟩

/-- Witness for C5 at a concrete input: the whitespace-only `Status`
cell imports to a record whose `status` reads as `undefined`, and that
`undefined` leaf exports back to the empty cell. -/
theorem c5_absence_mapping_witness :
    jsTrim "   " = "" ∧
    rowGet [("Status", none)] "Status" = papaTransform "   " ∧
    importFromParse [⟨"Status", "status", wBoolCodec⟩] wResC5 =
      .ok [.obj [("status", .undefined)]] ∧
    (∃ obj, ([JsVal.obj [("status", .undefined)]])[0]? = some obj ∧
      dlv obj (Column.segs ⟨"Status", "status", wBoolCodec⟩) = .undefined) ∧
    encodeCell wBoolCodec (dlv (.obj [("status", .undefined)])
      (Column.segs ⟨"Status", "status", wBoolCodec⟩)) = "" :=
  ⟨rfl, rfl, rfl,
   c5_absence_mapping.1 [] ⟨"Status", "status", wBoolCodec⟩ [] wResC5
     [.obj [("status", .undefined)]] 0 [("Status", none)] "   "
     (by decide) (by decide) (by decide) (by simp) rfl rfl rfl rfl rfl,
   c5_absence_mapping.2 ⟨"Status", "status", wBoolCodec⟩ (.obj [("status", .undefined)])
     rfl rfl⟩

/-! ## C6 — columns sharing a path prefix populate one container -/

/-- C6: two columns whose key-paths share a proper prefix (neither being
a prefix of the other) both land in the built object, each readable at
its own key-path — neither write erases the other's sibling subtree —
provided no later column's key-path is prefix-related to either. -/
theorem c6_shared_prefix_no_clobber (l1 : List Column) (ci : Column) (l2 : List Column)
    (cj : Column) (l3 : List Column) (row : DecodedRow) (p : List String)
    (hp : p ≠ [] ∧ p <+: ci.segs ∧ p <+: cj.segs ∧ p ≠ ci.segs ∧ p ≠ cj.segs)
    (hij : NoPrefixRel ci.segs cj.segs)
    (hg1 : ∀ k ∈ ci.segs, dsetGuard k = false)
    (hg2 : ∀ k ∈ cj.segs, dsetGuard k = false)
    (hframe1 : ∀ c ∈ l2 ++ l3, NoPrefixRel ci.segs c.segs)
    (hframe2 : ∀ c ∈ l3, NoPrefixRel cj.segs c.segs) :
    dlv (buildObj (l1 ++ ci :: l2 ++ cj :: l3) row) ci.segs =
      (assocGet row ci.header).getD .undefined ∧
    dlv (buildObj (l1 ++ ci :: l2 ++ cj :: l3) row) cj.segs =
      (assocGet row cj.header).getD .undefined := by
  have hne1 : ci.segs ≠ [] := by
    intro he
    rw [he] at hp
    exact hp.1 (List.prefix_nil.mp hp.2.1)
  have hne2 : cj.segs ≠ [] := by
    intro he
    rw [he] at hp
    exact hp.1 (List.prefix_nil.mp hp.2.2.1)
  constructor
  · have h1 : l1 ++ ci :: l2 ++ cj :: l3 = l1 ++ ci :: (l2 ++ cj :: l3) := by simp
    rw [h1]
    refine buildObj_read l1 ci (l2 ++ cj :: l3) row hne1 hg1 ?_
    intro c hc
    rcases List.mem_append.mp hc with h2 | h3
    · exact hframe1 c (List.mem_append.mpr (.inl h2))
    · rcases List.mem_cons.mp h3 with rfl | h4
      · exact hij
      · exact hframe1 c (List.mem_append.mpr (.inr h4))
  · have hassoc : l1 ++ ci :: l2 ++ cj :: l3 = (l1 ++ ci :: l2) ++ cj :: l3 := by simp
    rw [hassoc]
    exact buildObj_read (l1 ++ ci :: l2) cj l3 row hne2 hg2 hframe2

/-- Witness columns for C6: the spec's `meta.createdAt` /
`meta.scores.primary` pair behind an `id` column. -/
def wColCreated : Column := ⟨"Created At", "meta.createdAt", wStrCodec⟩

def wColScore : Column := ⟨"Score", "meta.scores.primary", wIntCodec⟩

/-- Witness for C6: both nested columns of the shared-`meta` schema read
back their own decoded values from the single built object. -/
theorem c6_shared_prefix_no_clobber_witness :
    (["meta"] ≠ [] ∧ ["meta"] <+: wColCreated.segs ∧ ["meta"] <+: wColScore.segs ∧
      ["meta"] ≠ wColCreated.segs ∧ ["meta"] ≠ wColScore.segs) ∧
    NoPrefixRel wColCreated.segs wColScore.segs ∧
    (dlv (buildObj [⟨"ID", "id", wStrCodec⟩, wColCreated, wColScore]
        [("ID", .str "101"), ("Created At", .str "2023-01-01"), ("Score", .num 95)])
      wColCreated.segs =
        (assocGet [("ID", JsVal.str "101"), ("Created At", JsVal.str "2023-01-01"),
          ("Score", JsVal.num 95)] wColCreated.header).getD .undefined ∧
     dlv (buildObj [⟨"ID", "id", wStrCodec⟩, wColCreated, wColScore]
        [("ID", .str "101"), ("Created At", .str "2023-01-01"), ("Score", .num 95)])
      wColScore.segs =
        (assocGet [("ID", JsVal.str "101"), ("Created At", JsVal.str "2023-01-01"),
          ("Score", JsVal.num 95)] wColScore.header).getD .undefined) ∧
    buildObj [⟨"ID", "id", wStrCodec⟩, wColCreated, wColScore]
        [("ID", .str "101"), ("Created At", .str "2023-01-01"), ("Score", .num 95)] =
      .obj [("id", .str "101"),
        ("meta", .obj [("createdAt", .str "2023-01-01"),
          ("scores", .obj [("primary", .num 95)])])] :=
  ⟨by decide, by decide,
   c6_shared_prefix_no_clobber [⟨"ID", "id", wStrCodec⟩] wColCreated [] wColScore []
     [("ID", .str "101"), ("Created At", .str "2023-01-01"), ("Score", .num 95)]
     ["meta"] (by decide) (by decide) (by decide) (by decide) (by simp) (by simp),
   by decide⟩

/-! ## C10 — duplicate key-paths: the later column's write wins -/

/-- C10: when two columns carry the identical key-path, a successfully
imported row holds, at that path, the decoded value of the later column
(writes are applied in schema order, so the last write wins), provided
no column after the later one interferes with the path. -/
theorem c10_duplicate_keypath_last_wins (l1 : List Column) (ci : Column)
    (l2 : List Column) (cj : Column) (l3 : List Column) (res : PapaResult)
    (objs : List JsVal) (i : Nat) (row : ParsedRow) (v : JsVal)
    (hnodup : ((l1 ++ ci :: l2 ++ cj :: l3).map Column.header).Nodup)
    (_hsame : ci.keyPath = cj.keyPath)
    (hne : cj.segs ≠ [])
    (hg : ∀ k ∈ cj.segs, dsetGuard k = false)
    (hframe : ∀ c ∈ l3, NoPrefixRel cj.segs c.segs)
    (hrow : res.data[i]? = some row)
    (hdec : cj.codec.decode (rowGet row cj.header) = .ok v)
    (himp : importFromParse (l1 ++ ci :: l2 ++ cj :: l3) res = .ok objs) :
    ∃ obj, objs[i]? = some obj ∧ dlv obj cj.segs = v := by
  have hassoc : l1 ++ ci :: l2 ++ cj :: l3 = (l1 ++ ci :: l2) ++ cj :: l3 := by simp
  rw [hassoc] at hnodup himp
  exact importedObj_read (l1 ++ ci :: l2) cj l3 res objs i row v hnodup hne hg hframe
    hrow hdec himp

/-- Witness input for C10: two columns, distinct headers, identical
key-path `x`. -/
def wResC10 : PapaResult := ⟨[[("A", some "first"), ("B", some "second")]], [], []⟩

/-- Witness for C10: the imported record holds the second column's
decoded value at the shared key-path. -/
theorem c10_duplicate_keypath_last_wins_witness :
    importFromParse [⟨"A", "x", wStrCodec⟩, ⟨"B", "x", wStrCodec⟩] wResC10 =
      .ok [.obj [("x", .str "second")]] ∧
    (∃ obj, ([JsVal.obj [("x", .str "second")]])[0]? = some obj ∧
      dlv obj (Column.segs ⟨"B", "x", wStrCodec⟩) = .str "second") :=
  ⟨rfl,
   c10_duplicate_keypath_last_wins [] ⟨"A", "x", wStrCodec⟩ [] ⟨"B", "x", wStrCodec⟩ []
     wResC10 [.obj [("x", .str "second")]] 0 [("A", some "first"), ("B", some "second")]
     (.str "second") (by decide) rfl (by decide) (by decide) (by simp) rfl rfl rfl⟩

/-! ## C1 — the round-trip -/

/-- The parsed row that re-importing the writer's output produces for one
record (headers trimmed, cells through the configured transform). -/
def parsedRowOf (schema : List Column) (e : JsVal) : ParsedRow :=
  fromEntriesLast (List.zipWith (fun h c => (jsTrim h, papaTransform c))
    (schema.map Column.header) (rowCells schema e))

theorem decEncOnValue_some (c : Codec) (v : JsVal) (s : String)
    (h : DecEncOnValue c v) (hs : c.encode v = some s) : c.decode (some s) = .ok v := by
  unfold DecEncOnValue at h
  rw [hs] at h
  exact h

theorem decEncOnValue_none (c : Codec) (v : JsVal)
    (h : DecEncOnValue c v) (hs : c.encode v = none) : c.decode none = .ok v := by
  unfold DecEncOnValue at h
  rw [hs] at h
  exact h

/-- Association lookup over a per-column map with distinct headers. -/
theorem assocGet_map_of_nodup {α : Type} (schema : List Column) (g : Column → α)
    (hnodup : (schema.map Column.header).Nodup) (col : Column) (hcol : col ∈ schema) :
    assocGet (schema.map (fun c => (c.header, g c))) col.header = some (g col) := by
  induction schema with
  | nil => cases hcol
  | cons c cs ih =>
    rw [List.map_cons] at hnodup
    have hk := List.nodup_cons.mp hnodup
    rcases List.mem_cons.mp hcol with rfl | hmem
    · simp [assocGet]
    · have hne : ¬ c.header = col.header := by
        intro he
        exact hk.1 (he ▸ List.mem_map.mpr ⟨col, hmem, rfl⟩)
      rw [List.map_cons, assocGet, if_neg hne]
      exact ih hk.2 hmem

/-- With duplicate-free, already-trimmed headers the parsed row is the
per-column list of transformed cells. -/
theorem parsedRowOf_eq (schema : List Column) (e : JsVal)
    (hnodup : (schema.map Column.header).Nodup)
    (hhdr : ∀ col ∈ schema, jsTrim col.header = col.header) :
    parsedRowOf schema e = schema.map (fun c =>
      (c.header, papaTransform (encodeCell c.codec (dlv e c.segs)))) := by
  unfold parsedRowOf rowCells
  rw [List.zipWith_map, List.zipWith_same]
  have hmap : schema.map (fun c =>
      (jsTrim c.header, papaTransform (encodeCell c.codec (dlv e c.segs)))) =
      schema.map (fun c =>
      (c.header, papaTransform (encodeCell c.codec (dlv e c.segs)))) :=
    List.map_congr_left (fun c hc => by rw [hhdr c hc])
  rw [hmap]
  apply fromEntriesLast_eq_self
  have hkeys : (schema.map (fun c =>
      (c.header, papaTransform (encodeCell c.codec (dlv e c.segs))))).map Prod.fst =
      schema.map Column.header := by
    simp [List.map_map]
  rw [hkeys]
  exact hnodup

/-- With duplicate-free headers the record's header-to-value row is the
per-column list of `dlv` reads. -/
theorem recordRow_eq (schema : List Column) (e : JsVal)
    (hnodup : (schema.map Column.header).Nodup) :
    recordRow schema e = schema.map (fun c => (c.header, dlv e c.segs)) := by
  unfold recordRow
  apply fromEntriesLast_eq_self
  have hkeys : (schema.map (fun c => (c.header, dlv e c.segs))).map Prod.fst =
      schema.map Column.header := by
    simp [List.map_map]
  rw [hkeys]
  exact hnodup

/-- A row on which every entry decodes produces no issues and the
entry-ordered decoded row. -/
theorem decodeRowWith_all_ok (i : Nat) (row : ParsedRow)
    (entries : List (String × Codec)) (f : String → JsVal)
    (h : ∀ p ∈ entries, p.2.decode (rowGet row p.1) = .ok (f p.1)) :
    decodeRowWith i row entries = ([], entries.map (fun p => (p.1, f p.1))) := by
  induction entries with
  | nil => rfl
  | cons p rest ih =>
    obtain ⟨h', c'⟩ := p
    have hd : c'.decode (rowGet row h') = .ok (f h') := h (h', c') (by simp)
    rw [show decodeRowWith i row ((h', c') :: rest) =
      ((decodeRowWith i row rest).1, (h', f h') :: (decodeRowWith i row rest).2) by
        simp [decodeRowWith, hd]]
    rw [ih (fun q hq => h q (List.mem_cons_of_mem _ hq))]
    rfl

/-- Whole-input version of `decodeRowWith_all_ok`. -/
theorem decodeRowsWith_all_ok (entries : List (String × Codec)) (n : Nat)
    (rows : List ParsedRow) (dec : ParsedRow → DecodedRow)
    (h : ∀ row ∈ rows, ∀ i, decodeRowWith i row entries = ([], dec row)) :
    decodeRowsWith entries n rows = ([], rows.map dec) := by
  induction rows generalizing n with
  | nil => rfl
  | cons row rows ih =>
    rw [show decodeRowsWith entries n (row :: rows) =
      ((decodeRowWith n row entries).1 ++ (decodeRowsWith entries (n + 1) rows).1,
       (decodeRowWith n row entries).2 :: (decodeRowsWith entries (n + 1) rows).2)
      from rfl]
    rw [h row (by simp) n, ih (n + 1) (fun r hr => h r (List.mem_cons_of_mem _ hr))]
    rfl

instance {ε α : Type} [DecidableEq ε] [DecidableEq α] : DecidableEq (Except ε α) := by
  intro a b
  cases a <;> cases b
  case error.error e1 e2 =>
    exact if h : e1 = e2 then .isTrue (by rw [h]) else .isFalse (fun he => h (by cases he; rfl))
  case ok.ok v1 v2 =>
    exact if h : v1 = v2 then .isTrue (by rw [h]) else .isFalse (fun he => h (by cases he; rfl))
  case error.ok e v => exact .isFalse (fun he => by cases he)
  case ok.error v e => exact .isFalse (fun he => by cases he)

/-- A string identity codec: optional, decoding a cell to itself. -/
def wIdCodec : Codec :=
  { decode := fun
      | none => .ok .undefined
      | some s => .ok (.str s),
    encode := fun
      | .str s => some s
      | _ => none }

/-- One-column schema over `wIdCodec`. -/
def wSchemaC1 : List Column := [⟨"A", "a", wIdCodec⟩]

/-- A conforming record whose leaf has a leading space. -/
def wRC1 : List JsVal := [.obj [("a", .str " x")]]

/-- Counterexample to C1 as stated: `wIdCodec` is a true inverse pair on
cell strings and on the record's values, and `wRC1` conforms to the
schema, yet the round trip returns `"x"` where the record held `" x"` —
the parse-side cell transform `(v) => v.trim() || undefined` trims the
re-read cell, so `import ∘ export` is not the identity. -/
theorem c1_roundtrip_counterexample :
    (∀ col ∈ wSchemaC1, TrueInverseOnCells col.codec) ∧
    (∀ e ∈ wRC1, ∀ col ∈ wSchemaC1, DecEncOnValue col.codec (dlv e col.segs)) ∧
    (∀ e ∈ wRC1, Conforms wSchemaC1 e) ∧
    importOfExport wSchemaC1 wRC1 ≠ .ok wRC1 := by
  refine ⟨?_, ?_, ?_, ?_⟩
  · intro col hc
    simp only [wSchemaC1, List.mem_singleton] at hc
    subst hc
    intro s v h
    cases h
    rfl
  · intro e he col hc
    simp only [wSchemaC1, List.mem_singleton] at hc
    simp only [wRC1, List.mem_singleton] at he
    subst he
    subst hc
    exact rfl
  · decide
  · decide

theorem map_eq_self_of_mem {α : Type} (l : List α) (f : α → α) (h : ∀ a ∈ l, f a = a) :
    l.map f = l := by
  induction l with
  | nil => rfl
  | cons a rest ih =>
    rw [List.map_cons, h a (by simp), ih (fun x hx => h x (List.mem_cons_of_mem a hx))]

theorem importFromParse_no_issues (schema : List Column) (data : List ParsedRow)
    (h : (decodeRowsWith (schemaEntries schema) 0 data).1 = []) :
    importFromParse schema ⟨data, [], []⟩ =
      .ok ((decodeRowsWith (schemaEntries schema) 0 data).2.map (buildObj schema)) := by
  unfold importFromParse
  rw [if_neg (by simp), if_neg (by simp [h])]

/-- C1 (amended): the round trip `import ∘ export` is the identity on a
conforming record sequence once, beyond the claim's true-inverse codec
hypotheses, (a) headers are duplicate-free and trim-stable (spec §3
declares duplicate headers undefined behaviour, and the parse config
trims header names), (b) every non-nullish encoded cell is itself
trim-stable and nonempty (the parse-side transform trims cells and turns
empty ones into `undefined` — the counterexample shows the claim fails
without this), and (c) no record serializes to an empty line (which
`skipEmptyLines` would drop). -/
theorem c1_roundtrip_trim_stable (schema : List Column) (R : List JsVal)
    (hnodup : (schema.map Column.header).Nodup)
    (hhdr : ∀ col ∈ schema, jsTrim col.header = col.header)
    (_hinv : ∀ col ∈ schema, TrueInverseOnCells col.codec)
    (hdec : ∀ e ∈ R, ∀ col ∈ schema, DecEncOnValue col.codec (dlv e col.segs))
    (hstable : ∀ e ∈ R, ∀ col ∈ schema, TrimStableCell col.codec (dlv e col.segs))
    (hconf : ∀ e ∈ R, Conforms schema e)
    (hvis : ∀ e ∈ R, unparseRow (rowCells schema e) ≠ "") :
    importOfExport schema R = .ok R := by
  have hent : schemaEntries schema = schema.map (fun c => (c.header, c.codec)) :=
    schemaEntries_eq_of_nodup schema hnodup
  have hfilter : (R.map (rowCells schema)).filter (fun r => !(unparseRow r == "")) =
      R.map (rowCells schema) := by
    apply List.filter_eq_self.mpr
    intro r hr
    rcases List.mem_map.mp hr with ⟨e, he, rfl⟩
    simpa using hvis e he
  have hparse : parseOfUnparsed (exportRows schema R) =
      ⟨R.map (parsedRowOf schema), [], []⟩ := by
    show PapaResult.mk (((R.map (rowCells schema)).filter (fun r => !(unparseRow r == ""))).map
      (fun cells => fromEntriesLast (List.zipWith (fun h c => (jsTrim h, papaTransform c))
        (schema.map Column.header) cells))) [] [] = _
    rw [hfilter, List.map_map]
    rfl
  have hrowdec : ∀ e ∈ R, ∀ i,
      decodeRowWith i (parsedRowOf schema e) (schemaEntries schema) =
        ([], recordRow schema e) := by
    intro e he i
    have hf : ∀ p ∈ schemaEntries schema,
        p.2.decode (rowGet (parsedRowOf schema e) p.1) =
          .ok ((assocGet (recordRow schema e) p.1).getD .undefined) := by
      rw [hent]
      intro p hp
      rcases List.mem_map.mp hp with ⟨col, hcol, rfl⟩
      show col.codec.decode (rowGet (parsedRowOf schema e) col.header) =
        .ok ((assocGet (recordRow schema e) col.header).getD .undefined)
      have hval : (assocGet (recordRow schema e) col.header).getD .undefined = dlv e col.segs := by
        rw [recordRow_eq schema e hnodup,
          assocGet_map_of_nodup schema (fun c => dlv e c.segs) hnodup col hcol]
        rfl
      have hget : rowGet (parsedRowOf schema e) col.header =
          papaTransform (encodeCell col.codec (dlv e col.segs)) := by
        unfold rowGet
        rw [parsedRowOf_eq schema e hnodup hhdr,
          assocGet_map_of_nodup schema
            (fun c => papaTransform (encodeCell c.codec (dlv e c.segs))) hnodup col hcol]
      rw [hget, hval]
      cases hs : col.codec.encode (dlv e col.segs) with
      | some s =>
        obtain ⟨ht, hne'⟩ := hstable e he col hcol s hs
        have hcell : encodeCell col.codec (dlv e col.segs) = s := by
          rw [encodeCell, hs]
          rfl
        have hpt : papaTransform (encodeCell col.codec (dlv e col.segs)) = some s := by
          rw [hcell, papaTransform, ht, if_neg hne']
        rw [hpt]
        exact decEncOnValue_some _ _ s (hdec e he col hcol) hs
      | none =>
        have hcell : encodeCell col.codec (dlv e col.segs) = "" := by
          rw [encodeCell, hs]
          rfl
        have hpt : papaTransform (encodeCell col.codec (dlv e col.segs)) = none := by
          rw [hcell]
          rfl
        rw [hpt]
        exact decEncOnValue_none _ _ (hdec e he col hcol) hs
    rw [decodeRowWith_all_ok i (parsedRowOf schema e) (schemaEntries schema)
      (fun h => (assocGet (recordRow schema e) h).getD .undefined) hf]
    have hmapc : schema.map ((fun p => (p.1, (assocGet (recordRow schema e) p.1).getD .undefined)) ∘
        (fun c => (c.header, c.codec))) = recordRow schema e := by
      conv_rhs => rw [recordRow_eq schema e hnodup]
      apply List.map_congr_left
      intro c hc
      show (c.header, (assocGet (recordRow schema e) c.header).getD .undefined) =
        (c.header, dlv e c.segs)
      rw [recordRow_eq schema e hnodup,
        assocGet_map_of_nodup schema (fun c => dlv e c.segs) hnodup c hc]
      rfl
    rw [hent, List.map_map, hmapc]
  unfold importOfExport
  rw [hparse]
  have hrows : decodeRowsWith (schemaEntries schema) 0 (R.map (parsedRowOf schema)) =
      ([], (R.map (parsedRowOf schema)).map
        (fun row => (decodeRowWith 0 row (schemaEntries schema)).2)) := by
    apply decodeRowsWith_all_ok
    intro row hrow i
    rcases List.mem_map.mp hrow with ⟨e, he, rfl⟩
    rw [hrowdec e he i, hrowdec e he 0]
  rw [importFromParse_no_issues schema (R.map (parsedRowOf schema)) (by rw [hrows]), hrows]
  have hobjs : (((R.map (parsedRowOf schema)).map
      (fun row => (decodeRowWith 0 row (schemaEntries schema)).2)).map (buildObj schema)) = R := by
    rw [List.map_map, List.map_map]
    apply map_eq_self_of_mem
    intro e he
    show buildObj schema ((decodeRowWith 0 (parsedRowOf schema e) (schemaEntries schema)).2) = e
    rw [hrowdec e he 0]
    exact hconf e he
  exact congrArg Except.ok hobjs

/-- A trim-stable conforming record for the amended round trip. -/
def wRC1ok : List JsVal := [.obj [("a", .str "x")]]

/-- Witness for the amended C1 at a concrete input: the round trip is the
identity on `{"a": "x"}` under the one-column identity schema. -/
theorem c1_roundtrip_trim_stable_witness :
    ((wSchemaC1.map Column.header).Nodup ∧
      (∀ col ∈ wSchemaC1, jsTrim col.header = col.header) ∧
      (∀ col ∈ wSchemaC1, TrueInverseOnCells col.codec) ∧
      (∀ e ∈ wRC1ok, ∀ col ∈ wSchemaC1, DecEncOnValue col.codec (dlv e col.segs)) ∧
      (∀ e ∈ wRC1ok, ∀ col ∈ wSchemaC1, TrimStableCell col.codec (dlv e col.segs)) ∧
      (∀ e ∈ wRC1ok, Conforms wSchemaC1 e) ∧
      (∀ e ∈ wRC1ok, unparseRow (rowCells wSchemaC1 e) ≠ "")) ∧
    importOfExport wSchemaC1 wRC1ok = .ok wRC1ok := by
  have hinv : ∀ col ∈ wSchemaC1, TrueInverseOnCells col.codec := by
    intro col hc
    simp only [wSchemaC1, List.mem_singleton] at hc
    subst hc
    intro s v h
    cases h
    rfl
  have hdec : ∀ e ∈ wRC1ok, ∀ col ∈ wSchemaC1, DecEncOnValue col.codec (dlv e col.segs) := by
    intro e he col hc
    simp only [wSchemaC1, List.mem_singleton] at hc
    simp only [wRC1ok, List.mem_singleton] at he
    subst he
    subst hc
    exact rfl
  have hstable : ∀ e ∈ wRC1ok, ∀ col ∈ wSchemaC1,
      TrimStableCell col.codec (dlv e col.segs) := by
    intro e he col hc
    simp only [wSchemaC1, List.mem_singleton] at hc
    simp only [wRC1ok, List.mem_singleton] at he
    subst he
    subst hc
    intro s h
    cases h
    exact ⟨rfl, by decide⟩
  refine ⟨⟨by decide, by decide, hinv, hdec, hstable, by decide, by decide⟩, ?_⟩
  exact c1_roundtrip_trim_stable wSchemaC1 wRC1ok (by decide) (by decide) hinv hdec hstable
    (by decide) (by decide)
